import Mathlib

/-!
# Verification of the CoastSat Narrabeen validation pipeline

Shallow embedding of the two core stages of `validation_Narrabeen.py`:

* the classification-consensus filter (canonical size by mode, class collapse,
  consensus averaging, confidence mask, divergence rejection, index-aligned
  pruning), and
* the temporal validator (matching satellite dates to survey dates by exact
  copy / interpolation / rejection, and the aggregate error statistics).

Rasters are `List (List _)` row-major grids.  NumPy NaN-producing operations
(`nanmean` of an empty list, `0/0`) are embedded as `Option ℚ` with `none`
playing the role of NaN; comparisons against `none` are `false`, exactly as
IEEE comparisons against NaN are.
-/

namespace CoastSat

/-! ## Class collapse (lines 132-137 of `validation_Narrabeen.py`)

The script first maps class 1 to 0, then maps classes 3 and 2 to 1:
`im[im == 1] = 0; im[(im == 3) | (im == 2)] = 1`. -/

/-- One cell of the collapse loop: `im[im == 1] = 0` followed by
`im[(im == 3) | (im == 2)] = 1`. -/
def collapseClass (c : ℕ) : ℕ :=
  let c1 := if c = 1 then 0 else c
  if c1 = 3 ∨ c1 = 2 then 1 else c1

/-- Collapse applied to a whole classification raster. -/
def collapseRaster (r : List (List ℕ)) : List (List ℕ) :=
  r.map (List.map collapseClass)

/-! ## Shared-mask filtering (lines 215-219 and 358-363, 404-409)

Both the `idx_keep` prune of the `output` dict and the NaN removals select,
from several co-indexed lists, the entries whose index the shared boolean
mask keeps, in ascending index order. -/

/-- Keep the entries of `l` at the positions where `mask` is `true`
(ascending order), the common shape of `[l[k] for k in np.where(mask)[0]]`. -/
def maskFilter (mask : List Bool) (l : List α) : List α :=
  ((mask.zip l).filter (fun p => p.1)).map (fun p => p.2)

/-- The keep-mask built at line 217: index `k` survives iff `k ∉ idx_remove`. -/
def keepMask (n : ℕ) (idxRemove : List ℕ) : List Bool :=
  (List.range n).map (fun k => !(idxRemove.contains k))

/-! ## Consensus average and confidence mask (lines 144-160) -/

/-- `np.nanmean` over a list of defined values: NaN (= `none`) iff the list is
empty. -/
def nanmean (l : List ℚ) : Option ℚ :=
  if l = [] then none else some (l.sum / l.length)

/-- Confidence test of one consensus cell:
`im_av > 1 - prc_pixel or im_av < prc_pixel`.  A NaN consensus value
(`none`) compares `false` on both sides. -/
def confidentCell (band : ℚ) : Option ℚ → Bool
  | none => false
  | some a => decide (1 - band < a ∨ a < band)

/-- `List.map` with the index, counting from `n`. -/
def mapWithIdx (f : ℕ → α → β) : ℕ → List α → List β
  | _, [] => []
  | i, a :: l => f i a :: mapWithIdx f (i + 1) l

/-- `im_bin[:,[0,-1]] = False; im_bin[[0,-1],:] = False`: clear the outermost
row and column on every side. -/
def clearEdges (g : List (List Bool)) : List (List Bool) :=
  mapWithIdx (fun i row =>
    mapWithIdx (fun j b =>
      if i = 0 ∨ i = g.length - 1 ∨ j = 0 ∨ j = row.length - 1 then false
      else b) 0 row) 0 g

/-- The confidence mask `im_bin` built from the averaged grid `g` (cells are
`none` where `im_av` is NaN). -/
def imBin (g : List (List (Option ℚ))) (band : ℚ) : List (List Bool) :=
  clearEdges (g.map (List.map (confidentCell band)))

/-! ## Divergence rejection (lines 182-189) -/

/-- `np.round`: round half to even, as NumPy does. -/
def npRound (q : ℚ) : ℤ :=
  let f := ⌊q⌋
  if q - f < 1/2 then f
  else if 1/2 < q - f then f + 1
  else if f % 2 = 0 then f else f + 1

/-- One cell of `im_diff == 1` after `im_diff[~im_bin] = np.nan`: counts iff
the mask holds, the consensus is defined, and `|round(im_av) - im| = 1`. -/
def diffCell (av : Option ℚ) (b : Bool) (x : ℚ) : Bool :=
  match b, av with
  | true, some a => decide (|((npRound a : ℚ)) - x| = 1)
  | _, _ => false

/-- `sum(sum(im_bin))`: the number of confident pixels. -/
def countTrue (mask : List (List Bool)) : ℕ :=
  (mask.map (fun r => (r.filter id).length)).sum

/-- `sum(sum(im_diff == 1))` over the three co-indexed grids. -/
def diffCount (av : List (List (Option ℚ))) (mask : List (List Bool))
    (im : List (List ℚ)) : ℕ :=
  ((av.zip (mask.zip im)).map (fun rs =>
    ((rs.1.zip (rs.2.1.zip rs.2.2)).filter (fun cs =>
      diffCell cs.1 cs.2.1 cs.2.2)).length)).sum

/-- `prc_change = sum(sum(im_diff == 1))/sum(sum(im_bin))`; the `0/0` of an
empty confidence mask is NaN (= `none`). -/
def prcChange (av : List (List (Option ℚ))) (mask : List (List Bool))
    (im : List (List ℚ)) : Option ℚ :=
  let n := countTrue mask
  if n = 0 then none else some ((diffCount av mask im : ℚ) / n)

/-- `if prc_change > settings[*prc_image*]`: rejection is a strict
greater-than; a NaN ratio compares `false`, so the image is kept. -/
def rejectDivergence (prc : Option ℚ) (thr : ℚ) : Bool :=
  match prc with
  | none => false
  | some p => decide (thr < p)

/-! ## Canonical size by mode (lines 113-124)

`np.unique` returns the distinct values in ascending order; `np.argmax` over
the per-value counts returns the first (hence, by sortedness, smallest-value)
index attaining the maximal count. -/

/-- Insert a value into an ascending duplicate-free list, keeping it ascending
and duplicate-free. -/
def insertUnique (a : ℕ) : List ℕ → List ℕ
  | [] => [a]
  | b :: l => if a < b then a :: b :: l else if a = b then b :: l else b :: insertUnique a l

/-- `np.unique l`: the distinct values of `l` in ascending order. -/
def uniqueSorted (l : List ℕ) : List ℕ :=
  l.foldr insertUnique []

/-- `np.argmax` carrying its value: first index of the maximum entry, with
that entry (`none` on the empty list, where NumPy raises). -/
def argmaxAux : List ℕ → Option (ℕ × ℕ)
  | [] => none
  | a :: l =>
    match argmaxAux l with
    | none => some (0, a)
    | some jm => if jm.2 > a then some (jm.1 + 1, jm.2) else some (0, a)

/-- Canonical dimension of lines 117-124: the single value when all agree,
otherwise `np.unique(dims)[np.argmax(counts)]`; `none` exactly when
`np.argmax` is handed an empty count list (empty stack). -/
def modeDim (dims : List ℕ) : Option ℕ :=
  let u := uniqueSorted dims
  if u.length = 1 then dims.head?
  else
    let counts := u.map (fun v => dims.count v)
    (argmaxAux counts).map (fun p => u.getD p.1 0)

/-- Canonical `(height, width)` for the stack, from the per-image dimension
pairs. -/
def canonicalDims (dims : List (ℕ × ℕ)) : Option (ℕ × ℕ) :=
  match modeDim (dims.map Prod.fst), modeDim (dims.map Prod.snd) with
  | some h, some w => some (h, w)
  | _, _ => none

/-- `idx_skip` (lines 127-129): indices whose height or width deviates from
the canonical value by more than `prc_image` of it. -/
def idxSkip (dims : List (ℕ × ℕ)) (hw : ℕ × ℕ) (prcImage : ℚ) : List ℕ :=
  (List.range dims.length).filter (fun k =>
    let d := dims.getD k (0, 0)
    decide (prcImage * hw.1 < |((d.1 : ℚ)) - hw.1| ∨
            prcImage * hw.2 < |((d.2 : ℚ)) - hw.2|))

/-- The control skeleton of the consensus-filter stage: the canonical-size
mode is computed once, up front, from the whole stack; `np.argmax` on the
empty count list aborts the stage (the spec's `EmptyStackError`), and the
per-image size rejections in the successful branch are a total computation
that cannot abort. -/
def consensusStage (dims : List (ℕ × ℕ)) (prcImage : ℚ) :
    Except Unit (List ℕ) :=
  match canonicalDims dims with
  | none => .error ()
  | some hw => .ok (idxSkip dims hw prcImage)

/-! ## Temporal matching (lines 381-402) -/

/-- `np.min` of a list of integers (`none` on the empty list, where NumPy
raises). -/
def listMin : List ℤ → Option ℤ
  | [] => none
  | a :: l =>
    match listMin l with
    | none => some a
    | some m => some (min a m)

/-- `days_diff = [(s - date).days for s in gt_dates]` with dates as day
numbers. -/
def daysDiffs (surDates : List ℤ) (d : ℤ) : List ℤ :=
  surDates.map (fun s => s - d)

/-- `np.abs(days_diff)`. -/
def absOffsets (surDates : List ℤ) (d : ℤ) : List ℤ :=
  (daysDiffs surDates d).map (fun x => |x|)

/-- First index at which the predicate holds (`length` when none does), the
shape of `np.where(p)[0][0]`. -/
def firstTrueIdx (p : α → Bool) : List α → ℕ
  | [] => 0
  | a :: l => if p a then 0 else firstTrueIdx p l + 1

/-- `np.where(np.abs(days_diff) == m)[0][0]`: first index attaining the
minimal absolute offset. -/
def idxClosest (surDates : List ℤ) (d m : ℤ) : ℕ :=
  firstTrueIdx (fun x => decide (x = m)) (absOffsets surDates d)

/-- `scipy.interpolate.interp1d` of the two points, evaluated at `d`. -/
def lerp (x0 x1 : ℤ) (y0 y1 : ℚ) (d : ℤ) : ℚ :=
  y0 + (y1 - y0) * (((d - x0 : ℤ) : ℚ)) / (((x1 - x0 : ℤ) : ℚ))

/-- Outcome of matching one satellite date:  excluded (`noMatch` = NaN kept),
matched to a survey value, the `break` of line 395-396 (`stop`), or a raised
exception (`matchErr`: `np.min` of an empty array, or `interp1d` with
`bounds_error=True` queried outside its range). -/
inductive MatchResult where
  | noMatch : MatchResult
  | matched : ℚ → MatchResult
  | stop : MatchResult
  | matchErr : MatchResult
deriving DecidableEq

/-- One iteration of the matching loop (lines 383-402).
`min_days`/`max_days` are `sett` values, `surD`/`surC` the survey dates and
chainages, `d` the satellite date.  Negative Python indexing on
`idx_before = idx_after - 1` when `idx_after = 0` wraps to the last element,
as in the source. -/
def matchDate (minD maxD : ℤ) (surD : List ℤ) (surC : List ℚ) (d : ℤ) :
    MatchResult :=
  match listMin (absOffsets surD d) with
  | none => .matchErr
  | some m =>
    if maxD < m then .noMatch
    else if m < minD then .matched (surC.getD (idxClosest surD d m) 0)
    else if (daysDiffs surD d).all (fun x => decide (x ≤ 0)) then .stop
    else
      let ja := firstTrueIdx (fun x => decide (0 < x)) (daysDiffs surD d)
      let jb := if ja = 0 then surD.length - 1 else ja - 1
      let x0 := surD.getD jb 0
      let x1 := surD.getD ja 0
      if min x0 x1 ≤ d ∧ d ≤ max x0 x1 then
        .matched (lerp x0 x1 (surC.getD jb 0) (surC.getD ja 0) d)
      else .matchErr

/-- The matching loop over the satellite dates of one transect.  `none` is a
raised exception aborting the script; a `stop` leaves the current date and
every later date unmatched (`chain_int` keeps its NaN initial value there). -/
def matchAll (minD maxD : ℤ) (surD : List ℤ) (surC : List ℚ) :
    List ℤ → Option (List (Option ℚ))
  | [] => some []
  | d :: ds =>
    match matchDate minD maxD surD surC d with
    | .matchErr => none
    | .stop => some (none :: ds.map (fun _ => none))
    | .noMatch => (matchAll minD maxD surD surC ds).map (fun r => none :: r)
    | .matched v => (matchAll minD maxD surD surC ds).map (fun r => some v :: r)

/-! ## Aggregate statistics (lines 474-481)

Per transect, the loop leaves `chain_sur`/`chain_sat` holding the last
transect's aligned vectors while `chain_sur_all`/`chain_sat_all` accumulate
the pooled vectors.  The aggregate block then calls
`stats.linregress(chain_sur, chain_sat)` — the last transect — but computes
`chain_error = chain_sat_all - chain_sur_all` — pooled — for RMSE, mean, std
and q90. -/

/-- Dot product of two rational vectors. -/
def dotProd (x y : List ℚ) : ℚ :=
  (x.zipWith (fun a b => a * b) y).sum

/-- `stats.linregress(x, y)` slope:
`(n·Σxy − Σx·Σy) / (n·Σx² − (Σx)²)`. -/
def linregressSlope (x y : List ℚ) : ℚ :=
  ((x.length : ℚ) * dotProd x y - x.sum * y.sum) /
    ((x.length : ℚ) * dotProd x x - x.sum * x.sum)

/-- The per-transect aligned vectors: `(chain_sur, chain_sat)` for each
transect, in loop order. -/
def pooledSur (ts : List (List ℚ × List ℚ)) : List ℚ :=
  (ts.map Prod.fst).flatten

/-- Pooled satellite chainages `chain_sat_all`. -/
def pooledSat (ts : List (List ℚ × List ℚ)) : List ℚ :=
  (ts.map Prod.snd).flatten

/-- The aggregate regression slope as the source computes it (line 476):
`stats.linregress(chain_sur, chain_sat)` on the loop variables, which hold
the LAST transect's vectors after the loop. -/
def aggSlopeCode (ts : List (List ℚ × List ℚ)) : ℚ :=
  match ts.getLast? with
  | none => 0
  | some t => linregressSlope t.1 t.2

/-- Modelled from the spec's words (refinement reference): the aggregate
regression fitted to the pooled satellite and survey chainage vectors, as
the spec's aggregate-statistics paragraph prescribes. -/
def aggSlopeSpec (ts : List (List ℚ × List ℚ)) : ℚ :=
  linregressSlope (pooledSur ts) (pooledSat ts)

/-- `chain_error = chain_sat_all - chain_sur_all` (line 475): the pooled
per-pair errors. -/
def chainErrorAll (ts : List (List ℚ × List ℚ)) : List ℚ :=
  (pooledSat ts).zipWith (fun a b => a - b) (pooledSur ts)

/-- The aggregate mean error (line 479), over the pooled errors. -/
def aggMeanError (ts : List (List ℚ × List ℚ)) : ℚ :=
  (chainErrorAll ts).sum / (chainErrorAll ts).length

/-- Two-transect input separating the last transect from the pool:
transect 1 has pairs (sur, sat) = (0,0), (1,1); transect 2 has (0,0), (1,2). -/
def demoTransects : List (List ℚ × List ℚ) :=
  [([0, 1], [0, 1]), ([0, 1], [0, 2])]

end CoastSat

namespace CoastSat

/-! ## Theorems -/

/-- For classes in the classifier's range, the collapse sends land (0) and
sand (1) to 0, whitewater (2) and water (3) to 1. -/
lemma collapseClass_of_le (c : ℕ) (h : c ≤ 3) :
    collapseClass c = if c ≤ 1 then 0 else 1 := by
  interval_cases c <;> rfl

/-- C2 counterexample: the original sand class (1) is collapsed to 0 (the
land side), not to 1 as the claim states for every non-land class. -/
theorem collapse_sand_goes_to_land :
    collapseRaster [[1]] = [[0]] ∧ collapseRaster [[1]] ≠ [[1]] := by
  constructor <;> decide

/-- C2 (amended): the collapse maps land (0) and sand (1) to 0 and
whitewater (2) / water (3) to 1; on a raster whose classes lie in the
classifier's range {0,1,2,3}, every collapsed cell is 0 or 1. -/
theorem collapseRaster_land_water (r : List (List ℕ))
    (h : ∀ row ∈ r, ∀ c ∈ row, c ≤ 3) :
    collapseRaster r = r.map (List.map (fun c => if c ≤ 1 then 0 else 1)) ∧
    ∀ row ∈ collapseRaster r, ∀ c ∈ row, c = 0 ∨ c = 1 := by
  constructor
  · unfold collapseRaster
    refine List.map_congr_left ?_
    intro row hrow
    refine List.map_congr_left ?_
    intro c hc
    exact collapseClass_of_le c (h row hrow c hc)
  · intro row hrow c hc
    rcases List.mem_map.1 hrow with ⟨row₀, hr₀, rfl⟩
    rcases List.mem_map.1 hc with ⟨c₀, hc₀, rfl⟩
    rw [collapseClass_of_le c₀ (h row₀ hr₀ c₀ hc₀)]
    by_cases h1 : c₀ ≤ 1 <;> simp [h1]

/-- C2 witness: the amended statement evaluated on one raster holding all
four classes. -/
theorem collapseRaster_land_water_witness :
    (∀ row ∈ ([[0, 1], [2, 3]] : List (List ℕ)), ∀ c ∈ row, c ≤ 3) ∧
    (collapseRaster [[0, 1], [2, 3]] =
      ([[0, 1], [2, 3]] : List (List ℕ)).map
        (List.map (fun c => if c ≤ 1 then 0 else 1)) ∧
     ∀ row ∈ collapseRaster [[0, 1], [2, 3]], ∀ c ∈ row, c = 0 ∨ c = 1) :=
  ⟨by decide, collapseRaster_land_water [[0, 1], [2, 3]] (by decide)⟩

/-- C4: an image is rejected for classification divergence iff its
divergence ratio is defined and strictly greater than the threshold; a
ratio exactly equal to the threshold is accepted. -/
theorem divergence_threshold_strict (av : List (List (Option ℚ)))
    (mask : List (List Bool)) (im : List (List ℚ)) (thr : ℚ) :
    (rejectDivergence (prcChange av mask im) thr = true ↔
       ∃ p, prcChange av mask im = some p ∧ thr < p) ∧
    (prcChange av mask im = some thr →
       rejectDivergence (prcChange av mask im) thr = false) := by
  constructor
  · cases hp : prcChange av mask im with
    | none => simp [rejectDivergence, hp]
    | some p => simp [rejectDivergence, hp]
  · intro h
    simp [rejectDivergence, h]

/-- C4 witness: a one-pixel image whose divergence ratio is exactly the
threshold is accepted. -/
theorem divergence_threshold_strict_witness :
    prcChange [[some 0]] [[true]] [[(1 : ℚ)]] = some 1 ∧
    rejectDivergence (prcChange [[some 0]] [[true]] [[(1 : ℚ)]]) 1 = false :=
  ⟨by norm_num [prcChange, countTrue, diffCount, diffCell, npRound],
   (divergence_threshold_strict [[some 0]] [[true]] [[(1 : ℚ)]] 1).2
     (by norm_num [prcChange, countTrue, diffCount, diffCell, npRound])⟩

/-- C10: with an all-false confidence mask the divergence ratio is the NaN
`0/0` for every image, the strict comparison against the threshold is false,
and no image is rejected. -/
theorem empty_mask_accepts_all (av : List (List (Option ℚ)))
    (mask : List (List Bool)) (im : List (List ℚ)) (thr : ℚ)
    (h : countTrue mask = 0) :
    prcChange av mask im = none ∧
    rejectDivergence (prcChange av mask im) thr = false := by
  have hp : prcChange av mask im = none := by simp [prcChange, h]
  exact ⟨hp, by simp [rejectDivergence, hp]⟩

/-- C10 witness: a concrete all-false mask accepts the image. -/
theorem empty_mask_accepts_all_witness :
    countTrue [[false, false]] = 0 ∧
    (prcChange [[some 0, some 1]] [[false, false]] [[(1 : ℚ), 0]] = none ∧
     rejectDivergence
       (prcChange [[some 0, some 1]] [[false, false]] [[(1 : ℚ), 0]])
       (3 / 10) = false) :=
  ⟨by decide,
   empty_mask_accepts_all [[some 0, some 1]] [[false, false]] [[(1 : ℚ), 0]]
     (3 / 10) (by decide)⟩

/-- C1: the aggregate block's regression is fitted to the last transect's
vectors, not to the pooled vectors the spec prescribes: on a two-transect
input they differ (2 against 3/2), while the aggregate mean error does use
the pooled pairs. -/
theorem aggregate_regression_last_transect :
    aggSlopeCode demoTransects = 2 ∧
    aggSlopeSpec demoTransects = 3 / 2 ∧
    aggSlopeCode demoTransects ≠ aggSlopeSpec demoTransects ∧
    aggMeanError demoTransects = 1 / 4 := by
  have h1 : aggSlopeCode demoTransects = 2 := by
    norm_num [aggSlopeCode, demoTransects, linregressSlope, dotProd]
  have h2 : aggSlopeSpec demoTransects = 3 / 2 := by
    norm_num [aggSlopeSpec, demoTransects, pooledSur, pooledSat,
      linregressSlope, dotProd]
  have h4 : aggMeanError demoTransects = 1 / 4 := by
    norm_num [aggMeanError, chainErrorAll, demoTransects, pooledSur, pooledSat]
  refine ⟨h1, h2, ?_, h4⟩
  rw [h1, h2]
  norm_num

end CoastSat

namespace CoastSat

/-! ### Shared-mask filtering: C5 -/

lemma maskFilter_nil (mask : List Bool) : maskFilter mask ([] : List α) = [] := by
  cases mask <;> rfl

lemma maskFilter_nil_mask (l : List α) : maskFilter [] l = [] := rfl

lemma maskFilter_cons (b : Bool) (mask : List Bool) (a : α) (l : List α) :
    maskFilter (b :: mask) (a :: l) =
      if b then a :: maskFilter mask l else maskFilter mask l := by
  cases b <;> simp [maskFilter]

/-- C5: filtering several co-indexed collections with one shared boolean
mask keeps their lengths equal, keeps the entries at each surviving index
pairwise corresponding (filtering the zipped list equals zipping the
filtered lists), and preserves the original relative order (the result is a
sublist of the input). -/
theorem maskFilter_aligned (mask : List Bool) (l₁ : List α) (l₂ : List β)
    (h : l₁.length = l₂.length) :
    (maskFilter mask l₁).length = (maskFilter mask l₂).length ∧
    maskFilter mask (l₁.zip l₂) =
      (maskFilter mask l₁).zip (maskFilter mask l₂) ∧
    (maskFilter mask l₁).Sublist l₁ := by
  induction mask generalizing l₁ l₂ with
  | nil => simp [maskFilter_nil_mask]
  | cons b mask ih =>
    cases l₁ with
    | nil =>
      have : l₂ = [] := by
        cases l₂ with
        | nil => rfl
        | cons c t => simp at h
      subst this
      simp [maskFilter_nil]
    | cons a t₁ =>
      cases l₂ with
      | nil => simp at h
      | cons c t₂ =>
        have ht : t₁.length = t₂.length := by simpa using h
        obtain ⟨ihl, ihz, ihs⟩ := ih t₁ t₂ ht
        cases b with
        | false =>
          refine ⟨?_, ?_, ?_⟩
          · simpa [maskFilter_cons] using ihl
          · simpa [maskFilter_cons] using ihz
          · simpa [maskFilter_cons] using ihs.cons a
        | true =>
          refine ⟨?_, ?_, ?_⟩
          · simpa [maskFilter_cons] using ihl
          · simpa [maskFilter_cons] using ihz
          · simpa [maskFilter_cons] using ihs.cons₂ a

/-- C5 witness: the invariant evaluated on two concrete co-indexed lists and
one shared mask. -/
theorem maskFilter_aligned_witness :
    (([10, 20, 30] : List ℤ).length = ([5, 6, 7] : List ℤ).length) ∧
    ((maskFilter [true, false, true] ([10, 20, 30] : List ℤ)).length =
       (maskFilter [true, false, true] ([5, 6, 7] : List ℤ)).length ∧
     maskFilter [true, false, true]
         (([10, 20, 30] : List ℤ).zip ([5, 6, 7] : List ℤ)) =
       (maskFilter [true, false, true] ([10, 20, 30] : List ℤ)).zip
         (maskFilter [true, false, true] ([5, 6, 7] : List ℤ)) ∧
     (maskFilter [true, false, true] ([10, 20, 30] : List ℤ)).Sublist
       [10, 20, 30]) :=
  ⟨by decide,
   maskFilter_aligned [true, false, true] [10, 20, 30] [5, 6, 7] (by decide)⟩

/-! ### Empty stack aborts, rejections do not: C9 -/

lemma insertUnique_ne_nil (a : ℕ) (l : List ℕ) : insertUnique a l ≠ [] := by
  cases l with
  | nil => simp [insertUnique]
  | cons b t =>
    unfold insertUnique
    split
    · simp
    · split <;> simp

lemma uniqueSorted_cons (a : ℕ) (l : List ℕ) :
    uniqueSorted (a :: l) = insertUnique a (uniqueSorted l) := rfl

lemma uniqueSorted_eq_nil_iff (l : List ℕ) : uniqueSorted l = [] ↔ l = [] := by
  cases l with
  | nil => simp [uniqueSorted]
  | cons a t =>
    simp only [uniqueSorted_cons]
    exact ⟨fun h => absurd h (insertUnique_ne_nil a _), fun h => by simp at h⟩

lemma argmaxAux_eq_none_iff (l : List ℕ) : argmaxAux l = none ↔ l = [] := by
  cases l with
  | nil => simp [argmaxAux]
  | cons a t =>
    unfold argmaxAux
    constructor
    · intro h
      cases ht : argmaxAux t with
      | none => rw [ht] at h; simp at h
      | some jm => rw [ht] at h; dsimp at h; split at h <;> simp_all
    · intro h; simp at h

lemma modeDim_eq_none_iff (l : List ℕ) : modeDim l = none ↔ l = [] := by
  by_cases h1 : (uniqueSorted l).length = 1
  · have he : modeDim l = l.head? := by simp [modeDim, h1]
    rw [he]
    cases l with
    | nil => rw [show uniqueSorted [] = [] from rfl] at h1; simp at h1
    | cons a t => simp
  · have he : modeDim l =
        (argmaxAux ((uniqueSorted l).map (fun v => l.count v))).map
          (fun p => (uniqueSorted l).getD p.1 0) := by
      simp [modeDim, h1]
    rw [he, Option.map_eq_none', argmaxAux_eq_none_iff, List.map_eq_nil_iff]
    exact uniqueSorted_eq_nil_iff l

/-- C9: the consensus-filter stage aborts (the spec's `EmptyStackError`,
concretely `np.argmax` raising on the empty count list) exactly when the
classification stack holds zero images; for a nonempty stack the stage
returns the per-image size rejections without aborting. -/
theorem consensusStage_empty_abort (dims : List (ℕ × ℕ)) (prcImage : ℚ) :
    (consensusStage dims prcImage = .error () ↔ dims = []) ∧
    (dims ≠ [] → consensusStage dims prcImage = .ok (idxSkip dims
      ((canonicalDims dims).getD (0, 0)) prcImage)) := by
  have key : ∀ ds : List (ℕ × ℕ), ds ≠ [] → ∃ hw, canonicalDims ds = some hw := by
    intro ds hds
    unfold canonicalDims
    have h1 : ds.map Prod.fst ≠ [] := by simpa using hds
    have h2 : ds.map Prod.snd ≠ [] := by simpa using hds
    cases hh : modeDim (ds.map Prod.fst) with
    | none => exact absurd ((modeDim_eq_none_iff _).1 hh) h1
    | some h =>
      cases hw : modeDim (ds.map Prod.snd) with
      | none => exact absurd ((modeDim_eq_none_iff _).1 hw) h2
      | some w => exact ⟨(h, w), rfl⟩
  constructor
  · constructor
    · intro h
      by_contra hne
      obtain ⟨hw, hcd⟩ := key dims hne
      unfold consensusStage at h
      rw [hcd] at h
      simp at h
    · intro h
      subst h
      rfl
  · intro hne
    obtain ⟨hw, hcd⟩ := key dims hne
    unfold consensusStage
    rw [hcd]
    simp [hcd]

/-- C9 witness: a singleton stack is not aborted and the empty stack is. -/
theorem consensusStage_empty_abort_witness :
    ([((10, 10) : ℕ × ℕ)] ≠ []) ∧
    consensusStage [((10, 10) : ℕ × ℕ)] (3 / 10) = .ok (idxSkip [(10, 10)]
      ((canonicalDims [(10, 10)]).getD (0, 0)) (3 / 10)) ∧
    (consensusStage ([] : List (ℕ × ℕ)) (3 / 10) = .error () ↔
      ([] : List (ℕ × ℕ)) = []) :=
  ⟨by decide,
   (consensusStage_empty_abort [(10, 10)] (3 / 10)).2 (by decide),
   (consensusStage_empty_abort [] (3 / 10)).1⟩

end CoastSat

namespace CoastSat

/-! ### Canonical size is the smallest most-frequent dimension: C8 -/

lemma mem_insertUnique (a x : ℕ) (l : List ℕ) :
    x ∈ insertUnique a l ↔ x = a ∨ x ∈ l := by
  induction l with
  | nil => simp [insertUnique]
  | cons b t ih =>
    unfold insertUnique
    split
    · simp
    · split
      · rename_i hab
        subst hab
        simp [List.mem_cons]
      · simp only [List.mem_cons, ih]
        tauto

lemma sorted_insertUnique (a : ℕ) (l : List ℕ) (h : l.Sorted (· < ·)) :
    (insertUnique a l).Sorted (· < ·) := by
  induction l with
  | nil => simp [insertUnique]
  | cons b t ih =>
    rw [List.sorted_cons] at h
    obtain ⟨hb, ht⟩ := h
    unfold insertUnique
    split
    · rename_i hab
      rw [List.sorted_cons]
      refine ⟨?_, ?_⟩
      · intro x hx
        rcases List.mem_cons.1 hx with rfl | hx
        · exact hab
        · exact lt_trans hab (hb x hx)
      · rw [List.sorted_cons]; exact ⟨hb, ht⟩
    · split
      · rw [List.sorted_cons]; exact ⟨hb, ht⟩
      · rename_i hab1 hab2
        rw [List.sorted_cons]
        refine ⟨?_, ih ht⟩
        intro x hx
        rcases (mem_insertUnique a x t).1 hx with rfl | hx
        · omega
        · exact hb x hx

lemma mem_uniqueSorted (l : List ℕ) (x : ℕ) : x ∈ uniqueSorted l ↔ x ∈ l := by
  induction l with
  | nil => simp [uniqueSorted]
  | cons a t ih =>
    rw [uniqueSorted_cons, mem_insertUnique]
    simp [ih]

lemma sorted_uniqueSorted (l : List ℕ) : (uniqueSorted l).Sorted (· < ·) := by
  induction l with
  | nil => simp [uniqueSorted]
  | cons a t ih => exact sorted_insertUnique a _ ih

lemma getD_mem (l : List ℕ) (i : ℕ) (d : ℕ) (h : i < l.length) :
    l.getD i d ∈ l := by
  induction l generalizing i with
  | nil => simp at h
  | cons a t ih =>
    cases i with
    | zero => simp
    | succ k =>
      simp only [List.getD_cons_succ]
      exact List.mem_cons_of_mem a (ih k (by simpa using h))

lemma getD_map (l : List ℕ) (f : ℕ → ℕ) (i : ℕ) (d0 d1 : ℕ)
    (h : i < l.length) : (l.map f).getD i d0 = f (l.getD i d1) := by
  induction l generalizing i with
  | nil => simp at h
  | cons a t ih =>
    cases i with
    | zero => simp
    | succ k => simpa using ih k (by simpa using h)

lemma sorted_getD_lt (l : List ℕ) (i j d : ℕ) (hs : l.Sorted (· < ·))
    (hij : i < j) (hj : j < l.length) : l.getD i d < l.getD j d := by
  induction l generalizing i j with
  | nil => simp at hj
  | cons a t ih =>
    rw [List.sorted_cons] at hs
    obtain ⟨ha, ht⟩ := hs
    cases j with
    | zero => omega
    | succ k =>
      cases i with
      | zero =>
        simp only [List.getD_cons_zero, List.getD_cons_succ]
        exact ha _ (getD_mem t k d (by simpa using hj))
      | succ n =>
        simp only [List.getD_cons_succ]
        exact ih n k ht (by omega) (by simpa using hj)

/-- `np.argmax` specification: the returned index is in range, holds the
returned value, that value is maximal, and every earlier entry is strictly
below it (first maximal index). -/
lemma argmaxAux_spec (l : List ℕ) (j m : ℕ) (h : argmaxAux l = some (j, m)) :
    j < l.length ∧ l.getD j 0 = m ∧ (∀ k, k < l.length → l.getD k 0 ≤ m) ∧
      (∀ k, k < j → l.getD k 0 < m) := by
  induction l generalizing j m with
  | nil => simp [argmaxAux] at h
  | cons a t ih =>
    unfold argmaxAux at h
    cases ht : argmaxAux t with
    | none =>
      rw [ht] at h
      simp only [Option.some_inj, Prod.mk.injEq] at h
      obtain ⟨h1, h2⟩ := h
      subst h1
      subst h2
      have htn : t = [] := (argmaxAux_eq_none_iff t).1 ht
      subst htn
      refine ⟨by simp, by simp, ?_, fun k hk => absurd hk (Nat.not_lt_zero k)⟩
      intro k hk
      have hk0 : k = 0 := by simpa [Nat.lt_one_iff] using hk
      subst hk0
      simp
    | some jm =>
      rw [ht] at h
      dsimp at h
      obtain ⟨j1, m1⟩ := jm
      obtain ⟨hj1, hm1, hmax1, hfirst1⟩ := ih j1 m1 ht
      split at h
      · rename_i hgt
        simp only [Option.some_inj, Prod.mk.injEq] at h
        obtain ⟨h1, h2⟩ := h
        subst h1
        subst h2
        refine ⟨by simpa using hj1, by simpa using hm1, ?_, ?_⟩
        · intro k hk
          cases k with
          | zero => simp; omega
          | succ n => simpa using hmax1 n (by simpa using hk)
        · intro k hk
          cases k with
          | zero => simpa using hgt
          | succ n => simpa using hfirst1 n (by omega)
      · rename_i hle
        simp only [Option.some_inj, Prod.mk.injEq] at h
        obtain ⟨h1, h2⟩ := h
        subst h1
        subst h2
        refine ⟨by simp, by simp, ?_,
          fun k hk => absurd hk (Nat.not_lt_zero k)⟩
        intro k hk
        cases k with
        | zero => simp
        | succ n =>
          have := hmax1 n (by simpa using hk)
          simp only [List.getD_cons_succ]
          omega

lemma mem_getD (l : List ℕ) (x : ℕ) (h : x ∈ l) :
    ∃ k, k < l.length ∧ l.getD k 0 = x := by
  induction l with
  | nil => simp at h
  | cons a t ih =>
    rcases List.mem_cons.1 h with rfl | hx
    · exact ⟨0, by simp, by simp⟩
    · obtain ⟨k, hk, hv⟩ := ih hx
      exact ⟨k + 1, by simpa using hk, by simpa using hv⟩

/-- The spec's contract for the canonical dimension: the most frequent
value; on a tie in frequency, the smallest value. -/
def isSmallestMode (l : List ℕ) (m : ℕ) : Prop :=
  m ∈ l ∧ (∀ v, l.count v ≤ l.count m) ∧ ∀ v ∈ l, l.count v = l.count m → m ≤ v

lemma modeDim_spec (l : List ℕ) (h : l ≠ []) :
    ∃ m, modeDim l = some m ∧ isSmallestMode l m := by
  by_cases h1 : (uniqueSorted l).length = 1
  · obtain ⟨v, hv⟩ : ∃ v, uniqueSorted l = [v] := by
      cases hu : uniqueSorted l with
      | nil => rw [hu] at h1; simp at h1
      | cons a t =>
        rw [hu] at h1
        simp only [List.length_cons, Nat.add_left_eq_self] at h1
        exact ⟨a, by rw [List.length_eq_zero] at h1; rw [h1]⟩
    have hall : ∀ x ∈ l, x = v := by
      intro x hx
      have hm := (mem_uniqueSorted l x).2 hx
      rw [hv] at hm
      simpa using hm
    cases l with
    | nil => exact absurd rfl h
    | cons a t =>
      have hmode : modeDim (a :: t) = some a := by simp [modeDim, h1]
      refine ⟨a, hmode, List.mem_cons_self a t, ?_, ?_⟩
      · intro w
        by_cases hw : w ∈ a :: t
        · rw [hall w hw, hall a (List.mem_cons_self a t)]
        · rw [List.count_eq_zero_of_not_mem hw]
          exact Nat.zero_le _
      · intro w hw _
        rw [hall w hw, hall a (List.mem_cons_self a t)]
  · have hune : uniqueSorted l ≠ [] :=
      fun he => h ((uniqueSorted_eq_nil_iff l).1 he)
    have hcne : (uniqueSorted l).map (fun v => l.count v) ≠ [] := by
      simpa using hune
    obtain ⟨p, hargs⟩ :
        ∃ p, argmaxAux ((uniqueSorted l).map (fun v => l.count v)) = some p := by
      cases hp : argmaxAux ((uniqueSorted l).map (fun v => l.count v)) with
      | none => exact absurd ((argmaxAux_eq_none_iff _).1 hp) hcne
      | some p => exact ⟨p, rfl⟩
    obtain ⟨j, mx⟩ := p
    obtain ⟨hjlen, hval, hmax, hfirst⟩ := argmaxAux_spec _ j mx hargs
    have hjlen1 : j < (uniqueSorted l).length := by simpa using hjlen
    have hmode : modeDim l = some ((uniqueSorted l).getD j 0) := by
      simp [modeDim, h1, hargs]
    have hcnt : l.count ((uniqueSorted l).getD j 0) = mx := by
      have hgm := getD_map (uniqueSorted l) (fun v => l.count v) j 0 0 hjlen1
      rw [hval] at hgm
      exact hgm.symm
    have hmem : (uniqueSorted l).getD j 0 ∈ l :=
      (mem_uniqueSorted l _).1 (getD_mem _ j 0 hjlen1)
    refine ⟨(uniqueSorted l).getD j 0, hmode, hmem, ?_, ?_⟩
    · intro w
      by_cases hw : w ∈ l
      · obtain ⟨k, hk, hkv⟩ := mem_getD (uniqueSorted l) w
          ((mem_uniqueSorted l w).2 hw)
        have hck : ((uniqueSorted l).map (fun v => l.count v)).getD k 0 =
            l.count w := by
          rw [getD_map (uniqueSorted l) (fun v => l.count v) k 0 0 hk, hkv]
        have := hmax k (by simpa using hk)
        rw [hck] at this
        omega
      · rw [List.count_eq_zero_of_not_mem hw]
        exact Nat.zero_le _
    · intro w hw heq
      obtain ⟨k, hk, hkv⟩ := mem_getD (uniqueSorted l) w
        ((mem_uniqueSorted l w).2 hw)
      have hck : ((uniqueSorted l).map (fun v => l.count v)).getD k 0 =
          l.count w := by
        rw [getD_map (uniqueSorted l) (fun v => l.count v) k 0 0 hk, hkv]
      rcases Nat.lt_trichotomy k j with hkj | hkj | hkj
      · exfalso
        have := hfirst k hkj
        rw [hck] at this
        omega
      · subst hkj
        rw [hkv]
      · rw [← hkv]
        exact le_of_lt (sorted_getD_lt (uniqueSorted l) j k 0
          (sorted_uniqueSorted l) hkj hk)

/-- C8: on a nonempty stack the canonical `(height, width)` exists and each
component is the most frequent dimension value, ties broken by the smallest
value; it is computed by `consensusStage` before any per-image work (the
stage's match reads it first). -/
theorem canonicalDims_mode (dims : List (ℕ × ℕ)) (h : dims ≠ []) :
    ∃ hw, canonicalDims dims = some hw ∧
      isSmallestMode (dims.map Prod.fst) hw.1 ∧
      isSmallestMode (dims.map Prod.snd) hw.2 := by
  obtain ⟨mh, hmh, hsh⟩ := modeDim_spec (dims.map Prod.fst) (by simpa using h)
  obtain ⟨mw, hmw, hsw⟩ := modeDim_spec (dims.map Prod.snd) (by simpa using h)
  refine ⟨(mh, mw), ?_, hsh, hsw⟩
  unfold canonicalDims
  rw [hmh, hmw]

/-- C8 witness: heights 10,12,12,10,8 tie at count two between 10 and 12 and
the smaller value 10 wins; widths have the single mode 6. -/
theorem canonicalDims_mode_witness :
    (([(10, 5), (12, 5), (12, 6), (10, 6), (8, 6)] : List (ℕ × ℕ)) ≠ []) ∧
    canonicalDims [(10, 5), (12, 5), (12, 6), (10, 6), (8, 6)] =
      some (10, 6) ∧
    (∃ hw, canonicalDims [(10, 5), (12, 5), (12, 6), (10, 6), (8, 6)] =
        some hw ∧
      isSmallestMode
        ([(10, 5), (12, 5), (12, 6), (10, 6), (8, 6)].map Prod.fst) hw.1 ∧
      isSmallestMode
        ([(10, 5), (12, 5), (12, 6), (10, 6), (8, 6)].map Prod.snd) hw.2) :=
  ⟨by decide, by decide, canonicalDims_mode _ (by decide)⟩

end CoastSat

namespace CoastSat

/-! ### Confidence mask: C7 -/

lemma getD_map_poly {α β : Type} (l : List α) (f : α → β) (i : ℕ) (d0 : β)
    (d1 : α) (h : i < l.length) : (l.map f).getD i d0 = f (l.getD i d1) := by
  induction l generalizing i with
  | nil => simp at h
  | cons a t ih =>
    cases i with
    | zero => simp
    | succ k => simpa using ih k (by simpa using h)

lemma mapWithIdx_getD {α β : Type} (f : ℕ → α → β) (n i : ℕ) (l : List α)
    (d0 : β) (d1 : α) (h : i < l.length) :
    (mapWithIdx f n l).getD i d0 = f (n + i) (l.getD i d1) := by
  induction l generalizing n i with
  | nil => simp at h
  | cons a t ih =>
    cases i with
    | zero => simp [mapWithIdx]
    | succ k =>
      rw [show mapWithIdx f n (a :: t) = f n a :: mapWithIdx f (n + 1) t
        from rfl]
      rw [List.getD_cons_succ, List.getD_cons_succ]
      rw [ih (n + 1) k (by simpa using h)]
      congr 1
      omega

/-- C7: a pixel of the confidence mask is set iff it is interior (not in the
outermost row or column on any side) and its consensus value is defined and
strictly above `1 - band` or strictly below `band`; a pixel with an
undefined (NaN) consensus value is never in the mask. -/
theorem imBin_spec (g : List (List (Option ℚ))) (band : ℚ) (i j : ℕ)
    (hi : i < g.length) (hj : j < (g.getD i []).length) :
    (((imBin g band).getD i []).getD j false = true ↔
      (0 < i ∧ i + 1 < g.length ∧ 0 < j ∧ j + 1 < (g.getD i []).length ∧
       ∃ a, (g.getD i []).getD j none = some a ∧ (1 - band < a ∨ a < band))) ∧
    ((g.getD i []).getD j none = none →
      ((imBin g band).getD i []).getD j false = false) := by
  have hGlen : (g.map (List.map (confidentCell band))).length = g.length :=
    List.length_map _ _
  have hrow : (g.map (List.map (confidentCell band))).getD i [] =
      (g.getD i []).map (confidentCell band) :=
    getD_map_poly g (List.map (confidentCell band)) i [] [] hi
  have hmain : ((imBin g band).getD i []).getD j false =
      (if i = 0 ∨ i = g.length - 1 ∨ j = 0 ∨
          j = (g.getD i []).length - 1 then false
       else confidentCell band ((g.getD i []).getD j none)) := by
    unfold imBin clearEdges
    rw [mapWithIdx_getD _ 0 i _ [] [] (by rw [hGlen]; exact hi)]
    rw [hrow]
    rw [mapWithIdx_getD _ 0 j _ false false
      (by rw [List.length_map]; exact hj)]
    rw [getD_map_poly (g.getD i []) (confidentCell band) j false none hj]
    simp only [Nat.zero_add, List.length_map, hGlen]
  rw [hmain]
  by_cases hedge : i = 0 ∨ i = g.length - 1 ∨ j = 0 ∨
      j = (g.getD i []).length - 1
  · rw [if_pos hedge]
    constructor
    · constructor
      · intro h
        exact absurd h (by simp)
      · rintro ⟨h1, h2, h3, h4, -⟩
        rcases hedge with h | h | h | h <;> omega
    · intro _
      rfl
  · rw [if_neg hedge]
    push_neg at hedge
    obtain ⟨he1, he2, he3, he4⟩ := hedge
    have hint : 0 < i ∧ i + 1 < g.length ∧ 0 < j ∧
        j + 1 < (g.getD i []).length := by
      refine ⟨by omega, by omega, by omega, by omega⟩
    constructor
    · cases hcell : (g.getD i []).getD j none with
      | none =>
        simp only [confidentCell]
        constructor
        · intro h
          exact absurd h (by simp)
        · rintro ⟨-, -, -, -, a, ha, -⟩
          simp at ha
      | some a =>
        simp only [confidentCell]
        rw [decide_eq_true_iff]
        constructor
        · intro hc
          exact ⟨hint.1, hint.2.1, hint.2.2.1, hint.2.2.2, a, rfl, hc⟩
        · rintro ⟨-, -, -, -, b, hb, hc⟩
          obtain rfl : a = b := by simpa using hb
          exact hc
    · intro hcell
      rw [hcell]
      rfl

/-- A small averaged grid for the confidence-mask witness. -/
def demoAv : List (List (Option ℚ)) :=
  [[some 0, some 0, some 0], [some 0, some 0, some 1], [some 1, some 1, some 1]]

/-- C7 witness: the mask characterization at the interior pixel (1,1) of a
3-by-3 averaged grid with the script's band 0.15. -/
theorem imBin_spec_witness :
    1 < demoAv.length ∧ 1 < (demoAv.getD 1 []).length ∧
    ((((imBin demoAv (15 / 100)).getD 1 []).getD 1 false = true ↔
       (0 < 1 ∧ 1 + 1 < demoAv.length ∧ 0 < 1 ∧
        1 + 1 < (demoAv.getD 1 []).length ∧
        ∃ a, (demoAv.getD 1 []).getD 1 none = some a ∧
          (1 - 15 / 100 < a ∨ a < 15 / 100))) ∧
     ((demoAv.getD 1 []).getD 1 none = none →
       ((imBin demoAv (15 / 100)).getD 1 []).getD 1 false = false)) :=
  ⟨by simp [demoAv], by simp [demoAv],
   imBin_spec demoAv (15 / 100) 1 1 (by simp [demoAv]) (by simp [demoAv])⟩

end CoastSat

namespace CoastSat

/-! ### Temporal matching: C3 and C6 -/

lemma listMin_spec (l : List ℤ) (m : ℤ) (h : listMin l = some m) :
    m ∈ l ∧ ∀ x ∈ l, m ≤ x := by
  induction l generalizing m with
  | nil => simp [listMin] at h
  | cons a t ih =>
    unfold listMin at h
    cases ht : listMin t with
    | none =>
      rw [ht] at h
      have htn : t = [] := by
        cases t with
        | nil => rfl
        | cons b s =>
          exfalso
          unfold listMin at ht
          cases hs : listMin s with
          | none => rw [hs] at ht; simp at ht
          | some q => rw [hs] at ht; simp at ht
      subst htn
      simp only [Option.some_inj] at h
      subst h
      exact ⟨by simp, by simp⟩
    | some m1 =>
      rw [ht] at h
      simp only [Option.some_inj] at h
      subst h
      obtain ⟨hmem, hle⟩ := ih m1 ht
      constructor
      · rcases le_total a m1 with hc | hc
        · simp [min_eq_left hc]
        · rw [min_eq_right hc]
          exact List.mem_cons_of_mem a hmem
      · intro x hx
        rcases List.mem_cons.1 hx with rfl | hx
        · exact min_le_left _ _
        · exact le_trans (min_le_right _ _) (hle x hx)

/-- `np.where(p)[0][0]` specification: the found index is in range, the
predicate holds there, and at no earlier index. -/
lemma firstTrueIdx_spec {α : Type} (p : α → Bool) (l : List α) (d : α)
    (h : ∃ x ∈ l, p x = true) :
    firstTrueIdx p l < l.length ∧ p (l.getD (firstTrueIdx p l) d) = true ∧
      ∀ k, k < firstTrueIdx p l → p (l.getD k d) = false := by
  induction l with
  | nil => simp at h
  | cons a t ih =>
    by_cases ha : p a = true
    · refine ⟨by simp [firstTrueIdx, ha], by simp [firstTrueIdx, ha], ?_⟩
      intro k hk
      simp [firstTrueIdx, ha] at hk
    · have hft : firstTrueIdx p (a :: t) = firstTrueIdx p t + 1 := by
        simp [firstTrueIdx, ha]
      obtain ⟨x, hx, hpx⟩ := h
      rcases List.mem_cons.1 hx with rfl | hx
      · exact absurd hpx ha
      · obtain ⟨h1, h2, h3⟩ := ih ⟨x, hx, hpx⟩
        refine ⟨by simpa [hft] using h1, by simpa [hft] using h2, ?_⟩
        intro k hk
        rw [hft] at hk
        cases k with
        | zero =>
          simp only [List.getD_cons_zero]
          exact Bool.eq_false_iff.2 ha
        | succ n =>
          simp only [List.getD_cons_succ]
          exact h3 n (by omega)

lemma absOffsets_getD (surD : List ℤ) (d : ℤ) (k : ℕ) (h : k < surD.length) :
    (absOffsets surD d).getD k 0 = |surD.getD k 0 - d| := by
  have hcomp : absOffsets surD d = surD.map (fun s => |s - d|) := by
    simp [absOffsets, daysDiffs, List.map_map]
  rw [hcomp]
  exact getD_map_poly surD (fun s => |s - d|) k 0 0 h

lemma daysDiffs_getD (surD : List ℤ) (d : ℤ) (k : ℕ) (h : k < surD.length) :
    (daysDiffs surD d).getD k 0 = surD.getD k 0 - d :=
  getD_map_poly surD (fun s => s - d) k 0 0 h

lemma length_absOffsets (surD : List ℤ) (d : ℤ) :
    (absOffsets surD d).length = surD.length := by
  simp [absOffsets, daysDiffs]

lemma length_daysDiffs (surD : List ℤ) (d : ℤ) :
    (daysDiffs surD d).length = surD.length := by
  simp [daysDiffs]

/-- C3: the three temporal-matching regimes.  With `m` the minimal absolute
day-offset to the survey dates: `m > max_days` excludes the observation;
`m < min_days` copies the chainage of the first closest survey date
exactly; `min_days ≤ m ≤ max_days` (the boundary `m = min_days` included)
returns the linear interpolation between the bracketing survey points — the
last survey date not after `d` and the first survey date strictly after
`d` — not a direct copy. -/
theorem matchDate_regimes (minD maxD : ℤ) (surD : List ℤ) (surC : List ℚ)
    (d m : ℤ) (hm : listMin (absOffsets surD d) = some m) :
    (maxD < m → matchDate minD maxD surD surC d = .noMatch) ∧
    (m < minD → ¬ maxD < m →
      ∃ i, i < surD.length ∧ |surD.getD i 0 - d| = m ∧
        (∀ k, k < i → |surD.getD k 0 - d| ≠ m) ∧
        matchDate minD maxD surD surC d = .matched (surC.getD i 0)) ∧
    (minD ≤ m → m ≤ maxD → surD.getD 0 0 ≤ d →
      (∃ x ∈ daysDiffs surD d, 0 < x) →
      ∃ jb ja, ja = jb + 1 ∧ ja < surD.length ∧
        surD.getD jb 0 ≤ d ∧ d < surD.getD ja 0 ∧
        (∀ k, k ≤ jb → surD.getD k 0 ≤ d) ∧
        matchDate minD maxD surD surC d =
          .matched (lerp (surD.getD jb 0) (surD.getD ja 0)
            (surC.getD jb 0) (surC.getD ja 0) d)) := by
  have hlen : (absOffsets surD d).length = surD.length :=
    length_absOffsets surD d
  refine ⟨?_, ?_, ?_⟩
  · intro hgt
    simp only [matchDate, hm]
    rw [if_pos hgt]
  · intro hlt hngt
    obtain ⟨hmem, -⟩ := listMin_spec _ m hm
    obtain ⟨h1, h2, h3⟩ := firstTrueIdx_spec (fun x => decide (x = m))
      (absOffsets surD d) 0 ⟨m, hmem, by simp⟩
    set i := firstTrueIdx (fun x => decide (x = m)) (absOffsets surD d) with hi
    have hilen : i < surD.length := by rw [← hlen]; exact h1
    refine ⟨i, hilen, ?_, ?_, ?_⟩
    · have h2A := of_decide_eq_true h2
      rw [absOffsets_getD surD d i hilen] at h2A
      exact h2A
    · intro k hk
      have h3A := of_decide_eq_false (h3 k hk)
      rw [absOffsets_getD surD d k (by omega)] at h3A
      exact h3A
    · simp only [matchDate, hm]
      rw [if_neg hngt, if_pos hlt]
      unfold idxClosest
      rw [← hi]
  · intro hge hle h0 hpos
    have hnmax : ¬ maxD < m := not_lt.2 hle
    have hnmin : ¬ m < minD := not_lt.2 hge
    obtain ⟨x, hx, hxpos⟩ := hpos
    have hallf : ((daysDiffs surD d).all (fun x => decide (x ≤ 0))) = false := by
      rw [Bool.eq_false_iff]
      intro hall
      rw [List.all_eq_true] at hall
      have := of_decide_eq_true (hall x hx)
      omega
    obtain ⟨h1, h2, h3⟩ := firstTrueIdx_spec (fun x => decide (0 < x))
      (daysDiffs surD d) 0 ⟨x, hx, by simpa using hxpos⟩
    set ja := firstTrueIdx (fun x => decide (0 < x)) (daysDiffs surD d)
      with hja
    have hjalen : ja < surD.length := by
      rw [← length_daysDiffs surD d]; exact h1
    have hjapos : d < surD.getD ja 0 := by
      have h2A := of_decide_eq_true h2
      rw [daysDiffs_getD surD d ja hjalen] at h2A
      omega
    have hja0 : ja ≠ 0 := by
      intro hz
      rw [hz] at hjapos
      omega
    have hbefore : ∀ k, k < ja → surD.getD k 0 ≤ d := by
      intro k hk
      have h3A := of_decide_eq_false (h3 k hk)
      rw [daysDiffs_getD surD d k (by omega)] at h3A
      omega
    refine ⟨ja - 1, ja, by omega, hjalen, hbefore (ja - 1) (by omega),
      hjapos, fun k hk => hbefore k (by omega), ?_⟩
    simp only [matchDate, hm]
    rw [if_neg hnmax, if_neg hnmin, hallf]
    simp only [Bool.false_eq_true, if_false]
    rw [← hja, if_neg hja0]
    rw [if_pos ⟨le_trans inf_le_left (hbefore (ja - 1) (by omega)),
      le_trans (le_of_lt hjapos) le_sup_right⟩]

/-- C3 witness: with `min_days = 3`, `max_days = 10` — an offset of 11
(= max_days + 1) is excluded; an offset of 2 (< min_days) copies the survey
chainage 7 exactly; an offset of exactly 3 (= min_days) interpolates
between the bracketing survey points, giving 3, not a copy of either. -/
theorem matchDate_regimes_witness :
    listMin (absOffsets [14] 3) = some 11 ∧ (10 : ℤ) < 11 ∧
    matchDate 3 10 [14] [0] 3 = .noMatch ∧
    listMin (absOffsets [1] 3) = some 2 ∧ (2 : ℤ) < 3 ∧
    matchDate 3 10 [1] [7] 3 = .matched 7 ∧
    listMin (absOffsets [0, 6] 3) = some 3 ∧ (3 : ℤ) ≤ 3 ∧ (3 : ℤ) ≤ 10 ∧
    matchDate 3 10 [0, 6] [0, 6] 3 = .matched 3 := by
  refine ⟨by decide, by decide,
    (matchDate_regimes 3 10 [14] [0] 3 11 (by decide)).1 (by decide),
    by decide, by decide, ?_, by decide, by decide, by decide, ?_⟩
  · obtain ⟨i, hi, -, -, hmatch⟩ :=
      (matchDate_regimes 3 10 [1] [7] 3 2 (by decide)).2.1 (by decide)
        (by decide)
    have hlen : ([1] : List ℤ).length = 1 := rfl
    have hi0 : i = 0 := by omega
    subst hi0
    simpa using hmatch
  · obtain ⟨jb, ja, hja, hlt2, -, -, -, hmatch⟩ :=
      (matchDate_regimes 3 10 [0, 6] [0, 6] 3 3 (by decide)).2.2 (by decide)
        (by decide) (by decide) ⟨3, by decide, by decide⟩
    have hlen : ([0, 6] : List ℤ).length = 2 := rfl
    have hja1 : ja = 1 := by omega
    have hjb0 : jb = 0 := by omega
    subst hja1
    subst hjb0
    rw [hmatch]
    norm_num [lerp]

/-- C6: at a satellite date whose minimal offset is in the interpolation
range but with no survey date strictly after it, the loop breaks: that date
and every later date of the transect are left unmatched, whatever later
dates follow. -/
theorem matchDate_stop_abandons (minD maxD : ℤ) (surD : List ℤ)
    (surC : List ℚ) (d : ℤ) (ds : List ℤ) (m : ℤ)
    (hm : listMin (absOffsets surD d) = some m)
    (h1 : minD ≤ m) (h2 : m ≤ maxD)
    (h3 : ∀ x ∈ daysDiffs surD d, x ≤ 0) :
    matchDate minD maxD surD surC d = .stop ∧
    matchAll minD maxD surD surC (d :: ds) =
      some (none :: ds.map (fun _ => none)) := by
  have hall : ((daysDiffs surD d).all (fun x => decide (x ≤ 0))) = true := by
    rw [List.all_eq_true]
    intro x hx
    exact decide_eq_true (h3 x hx)
  have hstop : matchDate minD maxD surD surC d = .stop := by
    simp only [matchDate, hm]
    rw [if_neg (not_lt.2 h2), if_neg (not_lt.2 h1), if_pos hall]
  refine ⟨hstop, ?_⟩
  simp only [matchAll, hstop]

/-- C6 witness: satellite date 10 sits 4 days after the last survey date 6
(offset within [3,10], nothing after it), so the loop stops and the later
satellite date 3 — which on its own would be matched — stays unmatched. -/
theorem matchDate_stop_abandons_witness :
    listMin (absOffsets [0, 6] 10) = some 4 ∧ (3 : ℤ) ≤ 4 ∧ (4 : ℤ) ≤ 10 ∧
    (∀ x ∈ daysDiffs [0, 6] 10, x ≤ 0) ∧
    (matchDate 3 10 [0, 6] [0, 6] 10 = .stop ∧
     matchAll 3 10 [0, 6] [0, 6] (10 :: [3]) =
       some (none :: ([3] : List ℤ).map (fun _ => none))) :=
  ⟨by decide, by decide, by decide, by decide,
   matchDate_stop_abandons 3 10 [0, 6] [0, 6] 10 [3] 4 (by decide)
     (by decide) (by decide) (by decide)⟩

end CoastSat
